import Mathlib

/-!
# Verification of the helium interaction/event-dispatch subsystem

Shallow embedding of `src/helium/src/events.rs`: the per-widget element
state machine (`Element`, `ElementState`), the callback registry
(`EventContext`, `EventFn`) and the interaction dispatcher
(`EventManager` with `process_hover`, `process_mouse`, `process`).

Modelling choices:
* Screen coordinates are `f64` in the source; the dispatcher only adds and
  compares them, so they are modelled as integers (`ℤ`).
* A registered callback carries a type-erased side-effecting closure
  (`Box<dyn FnMut()>`); an entry is modelled by its constructor tag and
  target widget id, and running the dispatcher produces a trace of calls
  `(i, w)` — "the closure of the `i`-th registered callback was invoked
  while dispatching for widget id `w`" — instead of executing effects.
* `self.elements.iter_mut().find(...).unwrap()` panics when no element
  matches; fallible operations therefore return `Option`, with `none`
  modelling the panic.
* The `crystal::Layout` trait is consumed only through `iter()`, `id()`,
  `position()` and `size()`; a layout snapshot is modelled as the list of
  nodes produced by `iter()`, in traversal order.
-/

namespace Helium

/-- 2D screen position (`crystal::Position`); `f64` coordinates modelled
as integers. `Position::default()` is the origin. -/
structure Position where
  x : ℤ
  y : ℤ
deriving DecidableEq, Repr

def Position.origin : Position := ⟨0, 0⟩

/-- A 2D size (`crystal::Size`). -/
structure Size where
  width : ℤ
  height : ℤ
deriving DecidableEq, Repr

/-- Modelled from the spec: `helium_core::position::Bounds` is not among
the sources; the spec defines a widget's bounds as the rectangle
`[x, x+width] × [y, y+height]` in screen coordinates. -/
structure Bounds where
  x : ℤ
  y : ℤ
  width : ℤ
  height : ℤ
deriving DecidableEq, Repr

/-- `Bounds::new(position, size)`. -/
def Bounds.new (position : Position) (size : Size) : Bounds :=
  ⟨position.x, position.y, size.width, size.height⟩

/-- Modelled from the spec: `Bounds::within` is not among the sources; the
spec defines "within" as the pointer's x and y each lying within the
closed intervals `[x, x+width]` and `[y, y+height]`. -/
def Bounds.within (b : Bounds) (p : Position) : Bool :=
  decide (b.x ≤ p.x) && decide (p.x ≤ b.x + b.width) &&
    decide (b.y ≤ p.y) && decide (p.y ≤ b.y + b.height)

/-- One node of the layout snapshot, as the dispatcher consumes it through
the `crystal::Layout` trait: `id()`, `position()`, `size()`. -/
structure LayoutNode where
  id : String
  position : Position
  size : Size
deriving DecidableEq, Repr

/-- `EventFn`: a registered callback entry — the trigger kind and the
target widget id; the boxed closure itself is elided (invocations are
recorded in call traces). -/
inductive EventFn where
  | OnHover (id : String)
  | OnClick (id : String)
deriving DecidableEq, Repr

/-- `EventFn::run_hover(widget_id)` runs the stored closure iff the entry
is `OnHover` and its id equals `widget_id`; returns whether the closure
was invoked. -/
def EventFn.run_hover (f : EventFn) (widget_id : String) : Bool :=
  match f with
  | .OnHover id => id == widget_id
  | .OnClick _ => false

/-- `EventFn::run_click(widget_id)` runs the stored closure iff the entry
is `OnClick` and its id equals `widget_id`; returns whether the closure
was invoked. -/
def EventFn.run_click (f : EventFn) (widget_id : String) : Bool :=
  match f with
  | .OnClick id => id == widget_id
  | .OnHover _ => false

/-- `EventContext`: stores callback entries in registration order. -/
structure EventContext where
  callbacks : List EventFn
deriving DecidableEq, Repr

/-- `EventContext::new()`. -/
def EventContext.new : EventContext := ⟨[]⟩

/-- `EventContext::add(callback)`: pushes onto the end of the vector. -/
def EventContext.add (cx : EventContext) (callback : EventFn) : EventContext :=
  ⟨cx.callbacks ++ [callback]⟩

/-- `ElementState`: `Default` (idle), `Hovered`, `Clicked` (pressed). -/
inductive ElementState where
  | Default
  | Hovered
  | Clicked
deriving DecidableEq, Repr

/-- `Element`: the interaction state of one widget. -/
structure Element where
  id : String
  previous_state : ElementState
  state : ElementState
deriving DecidableEq, Repr

/-- `Element::new(id)`: both states start `Default`. -/
def Element.new (id : String) : Element :=
  ⟨id, ElementState.Default, ElementState.Default⟩

/-- `Element::roll_back()`: set the state to whatever it was previously. -/
def Element.roll_back (e : Element) : Element :=
  { e with state := e.previous_state }

/-- `Element::default()`: record the current state and go to `Default`. -/
def Element.default (e : Element) : Element :=
  { e with previous_state := e.state, state := ElementState.Default }

/-- `Element::click()`: record the current state and go to `Clicked`. -/
def Element.click (e : Element) : Element :=
  { e with previous_state := e.state, state := ElementState.Clicked }

/-- `Element::hover()`: go to `Hovered`; `previous_state` is overwritten
with `Default` (the source marks this line `FIXME`). -/
def Element.hover (e : Element) : Element :=
  { e with previous_state := ElementState.Default, state := ElementState.Hovered }

namespace winit

/-- `winit::event::ElementState`. -/
inductive ElementState where
  | Pressed
  | Released
deriving DecidableEq, Repr

/-- `winit::event::MouseButton`. -/
inductive MouseButton where
  | Left
  | Right
  | Middle
  | Back
  | Forward
  | Other (code : ℕ)
deriving DecidableEq, Repr

/-- `winit::event::WindowEvent`, restricted to the payload the dispatcher
reads; `OtherEvent` stands for every further event kind, all of which fall
into the wildcard arm of `EventManager::process`. -/
inductive WindowEvent where
  | CursorMoved (position : Position)
  | MouseInput (state : winit.ElementState) (button : winit.MouseButton)
  | OtherEvent
deriving DecidableEq, Repr

end winit

/-- A recorded callback invocation: the index of the entry in the
callbacks vector and the widget id the dispatch was for. -/
abbrev Call := ℕ × String

/-- The loop `for callback in &mut self.callbacks { callback.run_hover(widget_id) }`,
started at entry index `i`, as the trace of invocations it performs. -/
def runHoverLoop (callbacks : List EventFn) (i : ℕ) (widget_id : String) : List Call :=
  match callbacks with
  | [] => []
  | f :: rest =>
    if f.run_hover widget_id then (i, widget_id) :: runHoverLoop rest (i + 1) widget_id
    else runHoverLoop rest (i + 1) widget_id

/-- The invocation trace of one full hover-dispatch pass over the
callbacks vector for `widget_id`. -/
def hoverCalls (callbacks : List EventFn) (widget_id : String) : List Call :=
  runHoverLoop callbacks 0 widget_id

/-- The loop `for callback in &mut self.callbacks { callback.run_click(widget_id) }`,
started at entry index `i`, as the trace of invocations it performs. -/
def runClickLoop (callbacks : List EventFn) (i : ℕ) (widget_id : String) : List Call :=
  match callbacks with
  | [] => []
  | f :: rest =>
    if f.run_click widget_id then (i, widget_id) :: runClickLoop rest (i + 1) widget_id
    else runClickLoop rest (i + 1) widget_id

/-- The invocation trace of one full click-dispatch pass over the
callbacks vector for `widget_id`. -/
def clickCalls (callbacks : List EventFn) (widget_id : String) : List Call :=
  runClickLoop callbacks 0 widget_id

/-- `EventManager`: the interaction dispatcher's state. -/
structure EventManager where
  mouse_pos : Position
  elements : List Element
  callbacks : List EventFn
deriving DecidableEq, Repr

/-- `EventManager::new(cx, layout)`: one `Element` per node of
`layout.iter()`, pointer at the origin, callbacks taken from the
context. -/
def EventManager.new (cx : EventContext) (layout : List LayoutNode) : EventManager :=
  ⟨Position.origin, layout.map (fun l => Element.new l.id), cx.callbacks⟩

/-- `self.elements.iter_mut().find(|e| e.id == id)`: split the element
vector around the first element whose id matches; `none` models the
`unwrap` panic when no element matches. -/
def findSplit (es : List Element) (id : String) :
    Option (List Element × Element × List Element) :=
  match es with
  | [] => none
  | e :: rest =>
    if e.id == id then some ([], e, rest)
    else
      match findSplit rest id with
      | none => none
      | some (p, x, s) => some (e :: p, x, s)

/-- `EventManager::process_hover(layout)`: hit-test the stored pointer
position against this node's bounds; inside an idle element becomes
hovered and the hover callbacks run, inside a non-idle element is left
alone, outside the element is reset to default. Returns the updated
manager and the invocation trace, `none` for the `unwrap` panic. -/
def EventManager.process_hover (m : EventManager) (l : LayoutNode) :
    Option (EventManager × List Call) :=
  let bounds := Bounds.new l.position l.size
  let mouse_pos := m.mouse_pos
  match findSplit m.elements l.id with
  | none => none
  | some (p, e, s) =>
    if bounds.within mouse_pos then
      match e.state with
      | ElementState.Default =>
          some ({ m with elements := p ++ Element.hover e :: s },
            hoverCalls m.callbacks l.id)
      | _ => some (m, [])
    else
      some ({ m with elements := p ++ Element.default e :: s }, [])

/-- `EventManager::process_mouse(layout, state, button)`: on `Pressed`, a
hovered element becomes clicked and the click callbacks run, other states
are left alone; on `Released`, the element is rolled back unconditionally.
The `button` argument is never read. Returns the updated manager and the
invocation trace, `none` for the `unwrap` panic. -/
def EventManager.process_mouse (m : EventManager) (l : LayoutNode)
    (state : winit.ElementState) (button : winit.MouseButton) :
    Option (EventManager × List Call) :=
  match findSplit m.elements l.id with
  | none => none
  | some (p, e, s) =>
    match state with
    | winit.ElementState.Pressed =>
      match e.state with
      | ElementState.Default => some (m, [])
      | ElementState.Hovered =>
          some ({ m with elements := p ++ Element.click e :: s },
            clickCalls m.callbacks l.id)
      | ElementState.Clicked => some (m, [])
    | winit.ElementState.Released =>
        some ({ m with elements := p ++ Element.roll_back e :: s }, [])

/-- The loop `for layout in layout.iter() { self.process_hover(layout) }`,
threading the manager through every node and concatenating the traces. -/
def EventManager.processHoverAll (m : EventManager) (layout : List LayoutNode) :
    Option (EventManager × List Call) :=
  match layout with
  | [] => some (m, [])
  | l :: rest =>
    match m.process_hover l with
    | none => none
    | some (m2, calls) =>
      match m2.processHoverAll rest with
      | none => none
      | some (m3, more) => some (m3, calls ++ more)

/-- The loop `for layout in layout.iter() { self.process_mouse(layout, state, button) }`,
threading the manager through every node and concatenating the traces. -/
def EventManager.processMouseAll (m : EventManager) (layout : List LayoutNode)
    (state : winit.ElementState) (button : winit.MouseButton) :
    Option (EventManager × List Call) :=
  match layout with
  | [] => some (m, [])
  | l :: rest =>
    match m.process_mouse l state button with
    | none => none
    | some (m2, calls) =>
      match m2.processMouseAll rest state button with
      | none => none
      | some (m3, more) => some (m3, calls ++ more)

/-- `EventManager::process(event, layout)`: `CursorMoved` stores the new
pointer position and runs the hover pass over every node; `MouseInput`
runs the mouse pass over every node; every other event is ignored. -/
def EventManager.process (m : EventManager) (event : winit.WindowEvent)
    (layout : List LayoutNode) : Option (EventManager × List Call) :=
  match event with
  | winit.WindowEvent.CursorMoved position =>
      EventManager.processHoverAll { m with mouse_pos := position } layout
  | winit.WindowEvent.MouseInput state button =>
      EventManager.processMouseAll m layout state button
  | winit.WindowEvent.OtherEvent => some (m, [])

/-- Look up the element tracked for widget id `w` (first match, as
`iter().find` would produce it). -/
def EventManager.lookup (m : EventManager) (w : String) : Option Element :=
  m.elements.find? (fun e => e.id == w)

/-! ## Properties of the call traces -/

theorem runHoverLoop_snd (cbs : List EventFn) (i : ℕ) (w : String) :
    ∀ c ∈ runHoverLoop cbs i w, c.2 = w := by
  induction cbs generalizing i with
  | nil => simp [runHoverLoop]
  | cons f rest ih =>
    intro c hc
    rw [runHoverLoop] at hc
    by_cases hf : f.run_hover w = true
    · rw [if_pos hf] at hc
      rcases List.mem_cons.mp hc with h | h
      · rw [h]
      · exact ih (i + 1) c h
    · rw [if_neg hf] at hc
      exact ih (i + 1) c hc

theorem runClickLoop_snd (cbs : List EventFn) (i : ℕ) (w : String) :
    ∀ c ∈ runClickLoop cbs i w, c.2 = w := by
  induction cbs generalizing i with
  | nil => simp [runClickLoop]
  | cons f rest ih =>
    intro c hc
    rw [runClickLoop] at hc
    by_cases hf : f.run_click w = true
    · rw [if_pos hf] at hc
      rcases List.mem_cons.mp hc with h | h
      · rw [h]
      · exact ih (i + 1) c h
    · rw [if_neg hf] at hc
      exact ih (i + 1) c hc

theorem hoverCalls_filter_self (cbs : List EventFn) (w : String) :
    (hoverCalls cbs w).filter (fun c => c.2 == w) = hoverCalls cbs w := by
  refine List.filter_eq_self.mpr (fun c hc => ?_)
  rw [runHoverLoop_snd cbs 0 w c hc]
  simp

theorem hoverCalls_filter_ne (cbs : List EventFn) (w w' : String)
    (h : (w == w') = false) :
    (hoverCalls cbs w).filter (fun c => c.2 == w') = [] := by
  refine List.filter_eq_nil_iff.mpr (fun c hc => ?_)
  rw [runHoverLoop_snd cbs 0 w c hc]
  simp [beq_eq_false_iff_ne.mp h]

theorem clickCalls_filter_self (cbs : List EventFn) (w : String) :
    (clickCalls cbs w).filter (fun c => c.2 == w) = clickCalls cbs w := by
  refine List.filter_eq_self.mpr (fun c hc => ?_)
  rw [runClickLoop_snd cbs 0 w c hc]
  simp

theorem clickCalls_filter_ne (cbs : List EventFn) (w w' : String)
    (h : (w == w') = false) :
    (clickCalls cbs w).filter (fun c => c.2 == w') = [] := by
  refine List.filter_eq_nil_iff.mpr (fun c hc => ?_)
  rw [runClickLoop_snd cbs 0 w c hc]
  simp [beq_eq_false_iff_ne.mp h]

theorem runHoverLoop_mem_iff (cbs : List EventFn) (i j : ℕ) (x w : String) :
    (j, x) ∈ runHoverLoop cbs i w ↔
      x = w ∧ ∃ k f, j = i + k ∧ cbs[k]? = some f ∧ f.run_hover w = true := by
  induction cbs generalizing i with
  | nil => simp [runHoverLoop]
  | cons f rest ih =>
    constructor
    · intro h
      rw [runHoverLoop] at h
      by_cases hf : f.run_hover w = true
      · rw [if_pos hf] at h
        rcases List.mem_cons.mp h with h | h
        · obtain ⟨rfl, rfl⟩ : j = i ∧ x = w := by simpa using h
          exact ⟨rfl, 0, f, by omega, by simp, hf⟩
        · obtain ⟨rfl, k, g, hj, hg, hrun⟩ := (ih (i + 1)).mp h
          exact ⟨rfl, k + 1, g, by omega, by simpa using hg, hrun⟩
      · rw [if_neg hf] at h
        obtain ⟨rfl, k, g, hj, hg, hrun⟩ := (ih (i + 1)).mp h
        exact ⟨rfl, k + 1, g, by omega, by simpa using hg, hrun⟩
    · rintro ⟨hxw, k, g, hj, hg, hrun⟩
      subst x
      rw [runHoverLoop]
      match k, hj, hg with
      | 0, hj, hg =>
        obtain rfl : g = f := by simpa using hg.symm
        obtain rfl : j = i := by omega
        rw [if_pos hrun]
        exact List.mem_cons_self _ _
      | k' + 1, hj, hg =>
        have hmem : (j, w) ∈ runHoverLoop rest (i + 1) w :=
          (ih (i + 1)).mpr ⟨rfl, k', g, by omega, by simpa using hg, hrun⟩
        by_cases hf : f.run_hover w = true
        · rw [if_pos hf]; exact List.mem_cons_of_mem _ hmem
        · rw [if_neg hf]; exact hmem

theorem runClickLoop_mem_iff (cbs : List EventFn) (i j : ℕ) (x w : String) :
    (j, x) ∈ runClickLoop cbs i w ↔
      x = w ∧ ∃ k f, j = i + k ∧ cbs[k]? = some f ∧ f.run_click w = true := by
  induction cbs generalizing i with
  | nil => simp [runClickLoop]
  | cons f rest ih =>
    constructor
    · intro h
      rw [runClickLoop] at h
      by_cases hf : f.run_click w = true
      · rw [if_pos hf] at h
        rcases List.mem_cons.mp h with h | h
        · obtain ⟨rfl, rfl⟩ : j = i ∧ x = w := by simpa using h
          exact ⟨rfl, 0, f, by omega, by simp, hf⟩
        · obtain ⟨rfl, k, g, hj, hg, hrun⟩ := (ih (i + 1)).mp h
          exact ⟨rfl, k + 1, g, by omega, by simpa using hg, hrun⟩
      · rw [if_neg hf] at h
        obtain ⟨rfl, k, g, hj, hg, hrun⟩ := (ih (i + 1)).mp h
        exact ⟨rfl, k + 1, g, by omega, by simpa using hg, hrun⟩
    · rintro ⟨hxw, k, g, hj, hg, hrun⟩
      subst x
      rw [runClickLoop]
      match k, hj, hg with
      | 0, hj, hg =>
        obtain rfl : g = f := by simpa using hg.symm
        obtain rfl : j = i := by omega
        rw [if_pos hrun]
        exact List.mem_cons_self _ _
      | k' + 1, hj, hg =>
        have hmem : (j, w) ∈ runClickLoop rest (i + 1) w :=
          (ih (i + 1)).mpr ⟨rfl, k', g, by omega, by simpa using hg, hrun⟩
        by_cases hf : f.run_click w = true
        · rw [if_pos hf]; exact List.mem_cons_of_mem _ hmem
        · rw [if_neg hf]; exact hmem

theorem hoverCalls_mem_iff (cbs : List EventFn) (j : ℕ) (x w : String) :
    (j, x) ∈ hoverCalls cbs w ↔
      x = w ∧ ∃ f, cbs[j]? = some f ∧ f.run_hover w = true := by
  rw [hoverCalls, runHoverLoop_mem_iff]
  constructor
  · rintro ⟨rfl, k, f, hk, hf, hrun⟩
    obtain rfl : j = k := by omega
    exact ⟨rfl, f, hf, hrun⟩
  · rintro ⟨rfl, f, hf, hrun⟩
    exact ⟨rfl, j, f, by omega, hf, hrun⟩

theorem clickCalls_mem_iff (cbs : List EventFn) (j : ℕ) (x w : String) :
    (j, x) ∈ clickCalls cbs w ↔
      x = w ∧ ∃ f, cbs[j]? = some f ∧ f.run_click w = true := by
  rw [clickCalls, runClickLoop_mem_iff]
  constructor
  · rintro ⟨rfl, k, f, hk, hf, hrun⟩
    obtain rfl : j = k := by omega
    exact ⟨rfl, f, hf, hrun⟩
  · rintro ⟨rfl, f, hf, hrun⟩
    exact ⟨rfl, j, f, by omega, hf, hrun⟩

theorem runHoverLoop_fst_ge (cbs : List EventFn) (i : ℕ) (w : String) :
    ∀ c ∈ runHoverLoop cbs i w, i ≤ c.1 := by
  intro c hc
  obtain ⟨j, x⟩ := c
  obtain ⟨-, k, f, hj, -, -⟩ := (runHoverLoop_mem_iff cbs i j x w).mp hc
  omega

theorem runClickLoop_fst_ge (cbs : List EventFn) (i : ℕ) (w : String) :
    ∀ c ∈ runClickLoop cbs i w, i ≤ c.1 := by
  intro c hc
  obtain ⟨j, x⟩ := c
  obtain ⟨-, k, f, hj, -, -⟩ := (runClickLoop_mem_iff cbs i j x w).mp hc
  omega

theorem runHoverLoop_pairwise (cbs : List EventFn) (i : ℕ) (w : String) :
    (runHoverLoop cbs i w).Pairwise (fun a b => a.1 < b.1) := by
  induction cbs generalizing i with
  | nil => simp [runHoverLoop]
  | cons f rest ih =>
    rw [runHoverLoop]
    by_cases hf : f.run_hover w = true
    · rw [if_pos hf]
      refine List.pairwise_cons.mpr ⟨fun c hc => ?_, ih (i + 1)⟩
      have := runHoverLoop_fst_ge rest (i + 1) w c hc
      omega
    · rw [if_neg hf]
      exact ih (i + 1)

theorem runClickLoop_pairwise (cbs : List EventFn) (i : ℕ) (w : String) :
    (runClickLoop cbs i w).Pairwise (fun a b => a.1 < b.1) := by
  induction cbs generalizing i with
  | nil => simp [runClickLoop]
  | cons f rest ih =>
    rw [runClickLoop]
    by_cases hf : f.run_click w = true
    · rw [if_pos hf]
      refine List.pairwise_cons.mpr ⟨fun c hc => ?_, ih (i + 1)⟩
      have := runClickLoop_fst_ge rest (i + 1) w c hc
      omega
    · rw [if_neg hf]
      exact ih (i + 1)

/-! ## Properties of element lookup -/

theorem findSplit_eq (es : List Element) (id : String) :
    ∀ p e s, findSplit es id = some (p, e, s) →
      es = p ++ e :: s ∧ (e.id == id) = true ∧ ∀ x ∈ p, (x.id == id) = false := by
  induction es with
  | nil => intro p e s h; simp [findSplit] at h
  | cons a rest ih =>
    intro p e s h
    rw [findSplit] at h
    by_cases ha : (a.id == id) = true
    · rw [if_pos ha] at h
      obtain ⟨rfl, rfl, rfl⟩ : [] = p ∧ a = e ∧ rest = s := by simpa using h
      exact ⟨rfl, ha, by simp⟩
    · rw [if_neg ha] at h
      cases hrec : findSplit rest id with
      | none => rw [hrec] at h; simp at h
      | some t =>
        obtain ⟨p', e', s'⟩ := t
        rw [hrec] at h
        simp only [Option.some.injEq, Prod.mk.injEq] at h
        obtain ⟨hp1, he1, hs1⟩ := h
        subst hp1
        subst he1
        subst hs1
        obtain ⟨h1, h2, h3⟩ := ih p' e' s' hrec
        refine ⟨by rw [h1]; simp, h2, ?_⟩
        intro x hx
        rcases List.mem_cons.mp hx with rfl | hx
        · simpa using ha
        · exact h3 x hx

theorem findSplit_eq_none (es : List Element) (id : String) :
    findSplit es id = none ↔ ∀ e ∈ es, (e.id == id) = false := by
  induction es with
  | nil => simp [findSplit]
  | cons a rest ih =>
    rw [findSplit]
    by_cases ha : (a.id == id) = true
    · rw [if_pos ha]
      constructor
      · intro h; simp at h
      · intro h
        have hfalse := h a (List.mem_cons_self a rest)
        rw [ha] at hfalse
        simp at hfalse
    · rw [if_neg ha]
      cases hrec : findSplit rest id with
      | none =>
        constructor
        · intro _ e he
          rcases List.mem_cons.mp he with rfl | he
          · simpa using ha
          · exact ih.mp hrec e he
        · intro _; rfl
      | some t =>
        obtain ⟨p', e', s'⟩ := t
        constructor
        · intro h; simp at h
        · intro h
          exfalso
          have hall : ∀ e ∈ rest, (e.id == id) = false :=
            fun e he => h e (List.mem_cons_of_mem _ he)
          rw [ih.mpr hall] at hrec
          simp at hrec

theorem findSplit_isSome (es : List Element) (id : String)
    (h : ∃ e ∈ es, (e.id == id) = true) :
    ∃ p e s, findSplit es id = some (p, e, s) := by
  cases hfs : findSplit es id with
  | none =>
    obtain ⟨e, he, hid⟩ := h
    have := (findSplit_eq_none es id).mp hfs e he
    rw [hid] at this
    simp at this
  | some t =>
    obtain ⟨p, e, s⟩ := t
    exact ⟨p, e, s, rfl⟩

theorem find?_append_skip (p : List Element) (w : String)
    (hp : ∀ x ∈ p, (x.id == w) = false) (e : Element) (s : List Element)
    (he : (e.id == w) = true) :
    (p ++ e :: s).find? (fun x => x.id == w) = some e := by
  induction p with
  | nil =>
    rw [List.nil_append]
    exact List.find?_cons_of_pos s he
  | cons a rest ih =>
    have ha : (a.id == w) = false := hp a (List.mem_cons_self _ _)
    rw [List.cons_append, List.find?_cons_of_neg _ (by simpa using beq_eq_false_iff_ne.mp ha)]
    exact ih (fun x hx => hp x (List.mem_cons_of_mem _ hx))

theorem find?_middle_congr (p : List Element) (w : String) (e e' : Element)
    (hid : e'.id = e.id) (hne : (e.id == w) = false) (s : List Element) :
    (p ++ e' :: s).find? (fun x => x.id == w) =
      (p ++ e :: s).find? (fun x => x.id == w) := by
  induction p with
  | nil =>
    have hne' : (e'.id == w) = false := by rw [hid]; exact hne
    rw [List.nil_append, List.nil_append,
      List.find?_cons_of_neg _ (by simpa using beq_eq_false_iff_ne.mp hne'),
      List.find?_cons_of_neg _ (by simpa using beq_eq_false_iff_ne.mp hne)]
  | cons a rest ih =>
    by_cases ha : (a.id == w) = true
    · rw [List.cons_append, List.cons_append,
        List.find?_cons_of_pos _ (by simpa using ha), List.find?_cons_of_pos _ (by simpa using ha)]
    · rw [List.cons_append, List.cons_append,
        List.find?_cons_of_neg _ (by simpa using ha), List.find?_cons_of_neg _ (by simpa using ha)]
      exact ih

theorem findSplit_of_find? (es : List Element) (w : String) (e : Element)
    (h : es.find? (fun x => x.id == w) = some e) :
    ∃ p s, findSplit es w = some (p, e, s) := by
  induction es with
  | nil => simp [List.find?] at h
  | cons a rest ih =>
    by_cases ha : (a.id == w) = true
    · rw [List.find?_cons_of_pos _ (by simpa using ha)] at h
      obtain rfl : a = e := by simpa using h
      exact ⟨[], rest, by rw [findSplit, if_pos ha]⟩
    · rw [List.find?_cons_of_neg _ (by simpa using ha)] at h
      obtain ⟨p, s, hps⟩ := ih h
      exact ⟨a :: p, s, by rw [findSplit, if_neg ha, hps]⟩

theorem exists_id_congr (es es' : List Element) (w : String)
    (h : es'.map (fun e => e.id) = es.map (fun e => e.id))
    (hx : ∃ e ∈ es, (e.id == w) = true) :
    ∃ e ∈ es', (e.id == w) = true := by
  obtain ⟨e, he, hid⟩ := hx
  have hmem : e.id ∈ es'.map (fun e => e.id) := by
    rw [h]; exact List.mem_map.mpr ⟨e, he, rfl⟩
  obtain ⟨e', he', hid'⟩ := List.mem_map.mp hmem
  refine ⟨e', he', ?_⟩
  rw [hid', hid]

theorem beq_false_of_beq_true (a b c : String) (hab : (a == b) = true)
    (hbc : (b == c) = false) : (a == c) = false := by
  rw [beq_iff_eq.mp hab]
  exact hbc

/-! ## Step lemmas: one `process_hover` / `process_mouse` call -/

theorem process_hover_step (m : EventManager) (l : LayoutNode) (m' : EventManager)
    (L : List Call) (h : m.process_hover l = some (m', L)) :
    m'.callbacks = m.callbacks ∧ m'.mouse_pos = m.mouse_pos ∧
    m'.elements.map (fun x => x.id) = m.elements.map (fun x => x.id) ∧
    ∀ w, (l.id == w) = false →
      m'.lookup w = m.lookup w ∧ L.filter (fun c => c.2 == w) = [] := by
  simp only [EventManager.process_hover] at h
  rcases hfs : findSplit m.elements l.id with - | ⟨p, e, s⟩
  · rw [hfs] at h; simp at h
  · simp only [hfs] at h
    obtain ⟨hes, heid, hp⟩ := findSplit_eq m.elements l.id p e s hfs
    by_cases hw : (Bounds.new l.position l.size).within m.mouse_pos = true
    · rw [if_pos hw] at h
      cases hstate : e.state with
      | Default =>
        simp only [hstate, Option.some.injEq, Prod.mk.injEq] at h
        obtain ⟨hm, hL⟩ := h
        subst hm
        subst hL
        refine ⟨rfl, rfl, by rw [hes]; simp [Element.hover], ?_⟩
        intro w hwne
        have hene : (e.id == w) = false := beq_false_of_beq_true _ _ _ heid hwne
        constructor
        · show (p ++ Element.hover e :: s).find? (fun x => x.id == w) = m.lookup w
          rw [find?_middle_congr p w e (Element.hover e) rfl hene s, EventManager.lookup, hes]
        · exact hoverCalls_filter_ne m.callbacks l.id w hwne
      | Hovered =>
        simp only [hstate, Option.some.injEq, Prod.mk.injEq] at h
        obtain ⟨hm, hL⟩ := h
        subst hm
        subst hL
        exact ⟨rfl, rfl, rfl, fun w _ => ⟨rfl, by simp⟩⟩
      | Clicked =>
        simp only [hstate, Option.some.injEq, Prod.mk.injEq] at h
        obtain ⟨hm, hL⟩ := h
        subst hm
        subst hL
        exact ⟨rfl, rfl, rfl, fun w _ => ⟨rfl, by simp⟩⟩
    · rw [if_neg hw] at h
      simp only [Option.some.injEq, Prod.mk.injEq] at h
      obtain ⟨hm, hL⟩ := h
      subst hm
      subst hL
      refine ⟨rfl, rfl, by rw [hes]; simp [Element.default], ?_⟩
      intro w hwne
      have hene : (e.id == w) = false := beq_false_of_beq_true _ _ _ heid hwne
      constructor
      · show (p ++ Element.default e :: s).find? (fun x => x.id == w) = m.lookup w
        rw [find?_middle_congr p w e (Element.default e) rfl hene s, EventManager.lookup, hes]
      · simp

theorem process_hover_target (m : EventManager) (l : LayoutNode) (e : Element)
    (he : m.lookup l.id = some e) :
    ∃ m' L, m.process_hover l = some (m', L) ∧
      m'.callbacks = m.callbacks ∧ m'.mouse_pos = m.mouse_pos ∧
      m'.elements.map (fun x => x.id) = m.elements.map (fun x => x.id) ∧
      ((Bounds.new l.position l.size).within m.mouse_pos = true →
        ((e.state = ElementState.Default →
            m'.lookup l.id = some (Element.hover e) ∧ L = hoverCalls m.callbacks l.id) ∧
         (e.state ≠ ElementState.Default → m' = m ∧ L = []))) ∧
      ((Bounds.new l.position l.size).within m.mouse_pos = false →
        m'.lookup l.id = some (Element.default e) ∧ L = []) := by
  obtain ⟨p, s, hfs⟩ := findSplit_of_find? m.elements l.id e he
  obtain ⟨hes, heid, hp⟩ := findSplit_eq m.elements l.id p e s hfs
  by_cases hw : (Bounds.new l.position l.size).within m.mouse_pos = true
  · cases hstate : e.state with
    | Default =>
      refine ⟨{ m with elements := p ++ Element.hover e :: s }, hoverCalls m.callbacks l.id,
        ?_, rfl, rfl, by rw [hes]; simp [Element.hover], ?_, ?_⟩
      · simp [EventManager.process_hover, hfs, hw, hstate]
      · intro _
        refine ⟨fun _ => ⟨?_, rfl⟩, fun hne => absurd rfl hne⟩
        show (p ++ Element.hover e :: s).find? (fun x => x.id == l.id) = _
        rw [find?_append_skip p l.id hp (Element.hover e) s (by show (e.id == l.id) = true; exact heid)]
      · intro hf
        rw [hw] at hf
        cases hf
    | Hovered =>
      refine ⟨m, [], ?_, rfl, rfl, rfl, ?_, ?_⟩
      · simp [EventManager.process_hover, hfs, hw, hstate]
      · intro _
        exact ⟨fun hd => absurd hd (by simp), fun _ => ⟨rfl, rfl⟩⟩
      · intro hf
        rw [hw] at hf
        cases hf
    | Clicked =>
      refine ⟨m, [], ?_, rfl, rfl, rfl, ?_, ?_⟩
      · simp [EventManager.process_hover, hfs, hw, hstate]
      · intro _
        exact ⟨fun hd => absurd hd (by simp), fun _ => ⟨rfl, rfl⟩⟩
      · intro hf
        rw [hw] at hf
        cases hf
  · refine ⟨{ m with elements := p ++ Element.default e :: s }, [],
      ?_, rfl, rfl, by rw [hes]; simp [Element.default], ?_, ?_⟩
    · simp [EventManager.process_hover, hfs, hw]
    · intro ht
      rw [ht] at hw
      simp at hw
    · intro _
      refine ⟨?_, rfl⟩
      show (p ++ Element.default e :: s).find? (fun x => x.id == l.id) = _
      rw [find?_append_skip p l.id hp (Element.default e) s (by show (e.id == l.id) = true; exact heid)]

theorem process_hover_some (m : EventManager) (l : LayoutNode)
    (h : ∃ e ∈ m.elements, (e.id == l.id) = true) :
    ∃ m' L, m.process_hover l = some (m', L) := by
  have hsome : (m.lookup l.id).isSome := List.find?_isSome.mpr h
  obtain ⟨e, he⟩ := Option.isSome_iff_exists.mp hsome
  obtain ⟨m', L, heq, -, -, -, -, -⟩ := process_hover_target m l e he
  exact ⟨m', L, heq⟩

theorem process_mouse_step (m : EventManager) (l : LayoutNode)
    (s : winit.ElementState) (b : winit.MouseButton) (m' : EventManager)
    (L : List Call) (h : m.process_mouse l s b = some (m', L)) :
    m'.callbacks = m.callbacks ∧ m'.mouse_pos = m.mouse_pos ∧
    m'.elements.map (fun x => x.id) = m.elements.map (fun x => x.id) ∧
    ∀ w, (l.id == w) = false →
      m'.lookup w = m.lookup w ∧ L.filter (fun c => c.2 == w) = [] := by
  simp only [EventManager.process_mouse] at h
  rcases hfs : findSplit m.elements l.id with - | ⟨p, e, t⟩
  · rw [hfs] at h; simp at h
  · obtain ⟨hes, heid, hp⟩ := findSplit_eq m.elements l.id p e t hfs
    cases s with
    | Pressed =>
      simp only [hfs] at h
      cases hstate : e.state with
      | Default =>
        simp only [hstate, Option.some.injEq, Prod.mk.injEq] at h
        obtain ⟨hm, hL⟩ := h
        subst hm
        subst hL
        exact ⟨rfl, rfl, rfl, fun w _ => ⟨rfl, by simp⟩⟩
      | Hovered =>
        simp only [hstate, Option.some.injEq, Prod.mk.injEq] at h
        obtain ⟨hm, hL⟩ := h
        subst hm
        subst hL
        refine ⟨rfl, rfl, by rw [hes]; simp [Element.click], ?_⟩
        intro w hwne
        have hene : (e.id == w) = false := beq_false_of_beq_true _ _ _ heid hwne
        constructor
        · show (p ++ Element.click e :: t).find? (fun x => x.id == w) = m.lookup w
          rw [find?_middle_congr p w e (Element.click e) rfl hene t, EventManager.lookup, hes]
        · exact clickCalls_filter_ne m.callbacks l.id w hwne
      | Clicked =>
        simp only [hstate, Option.some.injEq, Prod.mk.injEq] at h
        obtain ⟨hm, hL⟩ := h
        subst hm
        subst hL
        exact ⟨rfl, rfl, rfl, fun w _ => ⟨rfl, by simp⟩⟩
    | Released =>
      simp only [hfs, Option.some.injEq, Prod.mk.injEq] at h
      obtain ⟨hm, hL⟩ := h
      subst hm
      subst hL
      refine ⟨rfl, rfl, by rw [hes]; simp [Element.roll_back], ?_⟩
      intro w hwne
      have hene : (e.id == w) = false := beq_false_of_beq_true _ _ _ heid hwne
      constructor
      · show (p ++ Element.roll_back e :: t).find? (fun x => x.id == w) = m.lookup w
        rw [find?_middle_congr p w e (Element.roll_back e) rfl hene t, EventManager.lookup, hes]
      · simp

theorem process_mouse_target (m : EventManager) (l : LayoutNode) (e : Element)
    (s : winit.ElementState) (b : winit.MouseButton)
    (he : m.lookup l.id = some e) :
    ∃ m' L, m.process_mouse l s b = some (m', L) ∧
      m'.callbacks = m.callbacks ∧ m'.mouse_pos = m.mouse_pos ∧
      m'.elements.map (fun x => x.id) = m.elements.map (fun x => x.id) ∧
      (s = winit.ElementState.Pressed →
        ((e.state = ElementState.Default → m' = m ∧ L = []) ∧
         (e.state = ElementState.Hovered →
            m'.lookup l.id = some (Element.click e) ∧ L = clickCalls m.callbacks l.id) ∧
         (e.state = ElementState.Clicked → m' = m ∧ L = []))) ∧
      (s = winit.ElementState.Released →
        m'.lookup l.id = some (Element.roll_back e) ∧ L = []) := by
  obtain ⟨p, t, hfs⟩ := findSplit_of_find? m.elements l.id e he
  obtain ⟨hes, heid, hp⟩ := findSplit_eq m.elements l.id p e t hfs
  cases s with
  | Pressed =>
    cases hstate : e.state with
    | Default =>
      refine ⟨m, [], ?_, rfl, rfl, rfl, ?_, ?_⟩
      · simp [EventManager.process_mouse, hfs, hstate]
      · intro _
        refine ⟨fun _ => ⟨rfl, rfl⟩, fun hd => absurd hd (by simp),
          fun hd => absurd hd (by simp)⟩
      · intro hr
        cases hr
    | Hovered =>
      refine ⟨{ m with elements := p ++ Element.click e :: t }, clickCalls m.callbacks l.id,
        ?_, rfl, rfl, by rw [hes]; simp [Element.click], ?_, ?_⟩
      · simp [EventManager.process_mouse, hfs, hstate]
      · intro _
        refine ⟨fun hd => absurd hd (by simp), fun _ => ⟨?_, rfl⟩,
          fun hd => absurd hd (by simp)⟩
        show (p ++ Element.click e :: t).find? (fun x => x.id == l.id) = _
        rw [find?_append_skip p l.id hp (Element.click e) t (by show (e.id == l.id) = true; exact heid)]
      · intro hr
        cases hr
    | Clicked =>
      refine ⟨m, [], ?_, rfl, rfl, rfl, ?_, ?_⟩
      · simp [EventManager.process_mouse, hfs, hstate]
      · intro _
        refine ⟨fun hd => absurd hd (by simp),
          fun hd => absurd hd (by simp), fun _ => ⟨rfl, rfl⟩⟩
      · intro hr
        cases hr
  | Released =>
    refine ⟨{ m with elements := p ++ Element.roll_back e :: t }, [],
      ?_, rfl, rfl, by rw [hes]; simp [Element.roll_back], ?_, ?_⟩
    · simp [EventManager.process_mouse, hfs]
    · intro hr
      cases hr
    · intro _
      refine ⟨?_, rfl⟩
      show (p ++ Element.roll_back e :: t).find? (fun x => x.id == l.id) = _
      rw [find?_append_skip p l.id hp (Element.roll_back e) t (by show (e.id == l.id) = true; exact heid)]

theorem process_mouse_some (m : EventManager) (l : LayoutNode)
    (s : winit.ElementState) (b : winit.MouseButton)
    (h : ∃ e ∈ m.elements, (e.id == l.id) = true) :
    ∃ m' L, m.process_mouse l s b = some (m', L) := by
  have hsome : (m.lookup l.id).isSome := List.find?_isSome.mpr h
  obtain ⟨e, he⟩ := Option.isSome_iff_exists.mp hsome
  obtain ⟨m', L, heq, -, -, -, -, -⟩ := process_mouse_target m l e s b he
  exact ⟨m', L, heq⟩

/-! ## Whole-pass lemmas: the loops over every layout node -/

theorem processHoverAll_props (layout : List LayoutNode) :
    ∀ (m m' : EventManager) (L : List Call), m.processHoverAll layout = some (m', L) →
      m'.callbacks = m.callbacks ∧ m'.mouse_pos = m.mouse_pos ∧
      m'.elements.map (fun x => x.id) = m.elements.map (fun x => x.id) ∧
      ∀ w, (∀ l ∈ layout, (l.id == w) = false) →
        m'.lookup w = m.lookup w ∧ L.filter (fun c => c.2 == w) = [] := by
  induction layout with
  | nil =>
    intro m m' L h
    simp only [EventManager.processHoverAll, Option.some.injEq, Prod.mk.injEq] at h
    obtain ⟨hm, hL⟩ := h
    subst hm
    subst hL
    exact ⟨rfl, rfl, rfl, fun w _ => ⟨rfl, rfl⟩⟩
  | cons l rest ih =>
    intro m m' L h
    simp only [EventManager.processHoverAll] at h
    rcases h1 : m.process_hover l with - | ⟨m2, calls⟩
    · rw [h1] at h; simp at h
    · simp only [h1] at h
      rcases h2 : m2.processHoverAll rest with - | ⟨m3, more⟩
      · rw [h2] at h; simp at h
      · simp only [h2, Option.some.injEq, Prod.mk.injEq] at h
        obtain ⟨hm, hL⟩ := h
        subst hm
        subst hL
        obtain ⟨hcb1, hmp1, hmap1, hother1⟩ := process_hover_step m l m2 calls h1
        obtain ⟨hcb2, hmp2, hmap2, hother2⟩ := ih m2 m3 more h2
        refine ⟨by rw [hcb2, hcb1], by rw [hmp2, hmp1], by rw [hmap2, hmap1], ?_⟩
        intro w hw
        obtain ⟨hlk1, hf1⟩ := hother1 w (hw l (List.mem_cons_self _ _))
        obtain ⟨hlk2, hf2⟩ :=
          hother2 w (fun l' hl' => hw l' (List.mem_cons_of_mem _ hl'))
        refine ⟨by rw [hlk2, hlk1], ?_⟩
        rw [List.filter_append, hf1, hf2]
        rfl

theorem processHoverAll_some (layout : List LayoutNode) :
    ∀ m : EventManager, (∀ l ∈ layout, ∃ e ∈ m.elements, (e.id == l.id) = true) →
      ∃ m' L, m.processHoverAll layout = some (m', L) := by
  induction layout with
  | nil => intro m _; exact ⟨m, [], rfl⟩
  | cons l rest ih =>
    intro m hall
    obtain ⟨m2, calls, h1⟩ := process_hover_some m l (hall l (List.mem_cons_self _ _))
    obtain ⟨-, -, hmap, -⟩ := process_hover_step m l m2 calls h1
    have hall2 : ∀ l' ∈ rest, ∃ e ∈ m2.elements, (e.id == l'.id) = true :=
      fun l' hl' =>
        exists_id_congr m.elements m2.elements l'.id hmap (hall l' (List.mem_cons_of_mem _ hl'))
    obtain ⟨m3, more, h2⟩ := ih m2 hall2
    exact ⟨m3, calls ++ more, by simp only [EventManager.processHoverAll, h1, h2]⟩

theorem processHoverAll_append (a b : List LayoutNode) :
    ∀ (m m1 m2 : EventManager) (L1 L2 : List Call),
      m.processHoverAll a = some (m1, L1) → m1.processHoverAll b = some (m2, L2) →
      m.processHoverAll (a ++ b) = some (m2, L1 ++ L2) := by
  induction a with
  | nil =>
    intro m m1 m2 L1 L2 h1 h2
    simp only [EventManager.processHoverAll, Option.some.injEq, Prod.mk.injEq] at h1
    obtain ⟨hm, hL⟩ := h1
    subst hm
    subst hL
    simpa using h2
  | cons l rest ih =>
    intro m m1 m2 L1 L2 h1 h2
    simp only [EventManager.processHoverAll] at h1
    rcases hs : m.process_hover l with - | ⟨mi, ci⟩
    · rw [hs] at h1; simp at h1
    · simp only [hs] at h1
      rcases hr : mi.processHoverAll rest with - | ⟨mj, more⟩
      · rw [hr] at h1; simp at h1
      · simp only [hr, Option.some.injEq, Prod.mk.injEq] at h1
        obtain ⟨hm, hL⟩ := h1
        subst hm
        subst hL
        have hrec := ih mi mj m2 more L2 hr h2
        rw [List.cons_append]
        simp only [EventManager.processHoverAll, hs, hrec, List.append_assoc]

theorem processMouseAll_props (layout : List LayoutNode)
    (s : winit.ElementState) (b : winit.MouseButton) :
    ∀ (m m' : EventManager) (L : List Call), m.processMouseAll layout s b = some (m', L) →
      m'.callbacks = m.callbacks ∧ m'.mouse_pos = m.mouse_pos ∧
      m'.elements.map (fun x => x.id) = m.elements.map (fun x => x.id) ∧
      ∀ w, (∀ l ∈ layout, (l.id == w) = false) →
        m'.lookup w = m.lookup w ∧ L.filter (fun c => c.2 == w) = [] := by
  induction layout with
  | nil =>
    intro m m' L h
    simp only [EventManager.processMouseAll, Option.some.injEq, Prod.mk.injEq] at h
    obtain ⟨hm, hL⟩ := h
    subst hm
    subst hL
    exact ⟨rfl, rfl, rfl, fun w _ => ⟨rfl, rfl⟩⟩
  | cons l rest ih =>
    intro m m' L h
    simp only [EventManager.processMouseAll] at h
    rcases h1 : m.process_mouse l s b with - | ⟨m2, calls⟩
    · rw [h1] at h; simp at h
    · simp only [h1] at h
      rcases h2 : m2.processMouseAll rest s b with - | ⟨m3, more⟩
      · rw [h2] at h; simp at h
      · simp only [h2, Option.some.injEq, Prod.mk.injEq] at h
        obtain ⟨hm, hL⟩ := h
        subst hm
        subst hL
        obtain ⟨hcb1, hmp1, hmap1, hother1⟩ := process_mouse_step m l s b m2 calls h1
        obtain ⟨hcb2, hmp2, hmap2, hother2⟩ := ih m2 m3 more h2
        refine ⟨by rw [hcb2, hcb1], by rw [hmp2, hmp1], by rw [hmap2, hmap1], ?_⟩
        intro w hw
        obtain ⟨hlk1, hf1⟩ := hother1 w (hw l (List.mem_cons_self _ _))
        obtain ⟨hlk2, hf2⟩ :=
          hother2 w (fun l' hl' => hw l' (List.mem_cons_of_mem _ hl'))
        refine ⟨by rw [hlk2, hlk1], ?_⟩
        rw [List.filter_append, hf1, hf2]
        rfl

theorem processMouseAll_some (layout : List LayoutNode)
    (s : winit.ElementState) (b : winit.MouseButton) :
    ∀ m : EventManager, (∀ l ∈ layout, ∃ e ∈ m.elements, (e.id == l.id) = true) →
      ∃ m' L, m.processMouseAll layout s b = some (m', L) := by
  induction layout with
  | nil => intro m _; exact ⟨m, [], rfl⟩
  | cons l rest ih =>
    intro m hall
    obtain ⟨m2, calls, h1⟩ := process_mouse_some m l s b (hall l (List.mem_cons_self _ _))
    obtain ⟨-, -, hmap, -⟩ := process_mouse_step m l s b m2 calls h1
    have hall2 : ∀ l' ∈ rest, ∃ e ∈ m2.elements, (e.id == l'.id) = true :=
      fun l' hl' =>
        exists_id_congr m.elements m2.elements l'.id hmap (hall l' (List.mem_cons_of_mem _ hl'))
    obtain ⟨m3, more, h2⟩ := ih m2 hall2
    exact ⟨m3, calls ++ more, by simp only [EventManager.processMouseAll, h1, h2]⟩

theorem processMouseAll_append (a b : List LayoutNode)
    (s : winit.ElementState) (bt : winit.MouseButton) :
    ∀ (m m1 m2 : EventManager) (L1 L2 : List Call),
      m.processMouseAll a s bt = some (m1, L1) → m1.processMouseAll b s bt = some (m2, L2) →
      m.processMouseAll (a ++ b) s bt = some (m2, L1 ++ L2) := by
  induction a with
  | nil =>
    intro m m1 m2 L1 L2 h1 h2
    simp only [EventManager.processMouseAll, Option.some.injEq, Prod.mk.injEq] at h1
    obtain ⟨hm, hL⟩ := h1
    subst hm
    subst hL
    simpa using h2
  | cons l rest ih =>
    intro m m1 m2 L1 L2 h1 h2
    simp only [EventManager.processMouseAll] at h1
    rcases hs : m.process_mouse l s bt with - | ⟨mi, ci⟩
    · rw [hs] at h1; simp at h1
    · simp only [hs] at h1
      rcases hr : mi.processMouseAll rest s bt with - | ⟨mj, more⟩
      · rw [hr] at h1; simp at h1
      · simp only [hr, Option.some.injEq, Prod.mk.injEq] at h1
        obtain ⟨hm, hL⟩ := h1
        subst hm
        subst hL
        have hrec := ih mi mj m2 more L2 hr h2
        rw [List.cons_append]
        simp only [EventManager.processMouseAll, hs, hrec, List.append_assoc]

/-! ## The mouse pass reads neither the pointer position nor the button -/

theorem process_mouse_congr (m1 m2 : EventManager) (l : LayoutNode)
    (s : winit.ElementState) (b1 b2 : winit.MouseButton)
    (hel : m1.elements = m2.elements) (hcb : m1.callbacks = m2.callbacks) :
    (m1.process_mouse l s b1).map (fun p => (p.1.elements, p.1.callbacks, p.2)) =
      (m2.process_mouse l s b2).map (fun p => (p.1.elements, p.1.callbacks, p.2)) := by
  rcases hfs : findSplit m2.elements l.id with - | ⟨p, e, t⟩
  · simp [EventManager.process_mouse, hel, hfs]
  · cases s with
    | Pressed =>
      cases he : e.state with
      | Default => simp [EventManager.process_mouse, hel, hfs, he, hcb]
      | Hovered => simp [EventManager.process_mouse, hel, hfs, he, hcb]
      | Clicked => simp [EventManager.process_mouse, hel, hfs, he, hcb]
    | Released => simp [EventManager.process_mouse, hel, hfs, hcb]

theorem processMouseAll_congr (layout : List LayoutNode)
    (s : winit.ElementState) (b1 b2 : winit.MouseButton) :
    ∀ m1 m2 : EventManager, m1.elements = m2.elements → m1.callbacks = m2.callbacks →
      (m1.processMouseAll layout s b1).map (fun p => (p.1.elements, p.1.callbacks, p.2)) =
        (m2.processMouseAll layout s b2).map (fun p => (p.1.elements, p.1.callbacks, p.2)) := by
  induction layout with
  | nil =>
    intro m1 m2 hel hcb
    simp [EventManager.processMouseAll, hel, hcb]
  | cons l rest ih =>
    intro m1 m2 hel hcb
    have hstep := process_mouse_congr m1 m2 l s b1 b2 hel hcb
    rcases h1 : m1.process_mouse l s b1 with - | ⟨m1', L1⟩ <;>
      rcases h2 : m2.process_mouse l s b2 with - | ⟨m2', L2⟩
    · simp [EventManager.processMouseAll, h1, h2]
    · rw [h1, h2] at hstep; simp at hstep
    · rw [h1, h2] at hstep; simp at hstep
    · rw [h1, h2] at hstep
      obtain ⟨hel', hcb', hL⟩ :
          m1'.elements = m2'.elements ∧ m1'.callbacks = m2'.callbacks ∧ L1 = L2 := by
        simpa using hstep
      have hrec := ih m1' m2' hel' hcb'
      rcases h3 : m1'.processMouseAll rest s b1 with - | ⟨m1'', L1'⟩ <;>
        rcases h4 : m2'.processMouseAll rest s b2 with - | ⟨m2'', L2'⟩
      · simp [EventManager.processMouseAll, h1, h2, h3, h4]
      · rw [h3, h4] at hrec; simp at hrec
      · rw [h3, h4] at hrec; simp at hrec
      · rw [h3, h4] at hrec
        obtain ⟨hel'', hcb'', hL'⟩ :
            m1''.elements = m2''.elements ∧ m1''.callbacks = m2''.callbacks ∧ L1' = L2' := by
          simpa using hrec
        simp [EventManager.processMouseAll, h1, h2, h3, h4, hL, hL', hel'', hcb'']

/-! ## Master lemmas: one full `process` call, seen from one target widget -/

theorem processCursor_master (m : EventManager) (pos : Position)
    (pre post : List LayoutNode) (l : LayoutNode) (e : Element)
    (hall : ∀ l' ∈ pre ++ l :: post, ∃ x ∈ m.elements, (x.id == l'.id) = true)
    (huniq : ∀ l' ∈ pre ++ post, (l'.id == l.id) = false)
    (he : m.lookup l.id = some e) :
    ∃ m' L, m.process (winit.WindowEvent.CursorMoved pos) (pre ++ l :: post) = some (m', L) ∧
      m'.callbacks = m.callbacks ∧ m'.mouse_pos = pos ∧
      m'.elements.map (fun x => x.id) = m.elements.map (fun x => x.id) ∧
      (((Bounds.new l.position l.size).within pos = true →
         ((e.state = ElementState.Default →
            m'.lookup l.id = some (Element.hover e) ∧
            L.filter (fun c => c.2 == l.id) = hoverCalls m.callbacks l.id) ∧
          (e.state ≠ ElementState.Default →
            m'.lookup l.id = some e ∧ L.filter (fun c => c.2 == l.id) = []))) ∧
       ((Bounds.new l.position l.size).within pos = false →
         m'.lookup l.id = some (Element.default e) ∧
         L.filter (fun c => c.2 == l.id) = [])) := by
  have hall_pre : ∀ l' ∈ pre, ∃ x ∈ m.elements, (x.id == l'.id) = true :=
    fun l' hl' => hall l' (List.mem_append_left _ hl')
  have hall_post : ∀ l' ∈ post, ∃ x ∈ m.elements, (x.id == l'.id) = true :=
    fun l' hl' => hall l' (List.mem_append_right _ (List.mem_cons_of_mem _ hl'))
  have huniq_pre : ∀ l' ∈ pre, (l'.id == l.id) = false :=
    fun l' hl' => huniq l' (List.mem_append_left _ hl')
  have huniq_post : ∀ l' ∈ post, (l'.id == l.id) = false :=
    fun l' hl' => huniq l' (List.mem_append_right _ hl')
  obtain ⟨m1, L1, hpre⟩ :=
    processHoverAll_some pre { m with mouse_pos := pos } hall_pre
  obtain ⟨hcb1, hmp1, hmap1, hother1⟩ :=
    processHoverAll_props pre { m with mouse_pos := pos } m1 L1 hpre
  obtain ⟨hlk1, hfl1⟩ := hother1 l.id huniq_pre
  have he1 : m1.lookup l.id = some e := hlk1.trans he
  have hmp1' : m1.mouse_pos = pos := hmp1
  obtain ⟨m2, L2, hstep, hcb2, hmp2, hmap2, hin2, hout2⟩ := process_hover_target m1 l e he1
  have hall_post2 : ∀ l' ∈ post, ∃ x ∈ m2.elements, (x.id == l'.id) = true := by
    intro l' hl'
    refine exists_id_congr m.elements m2.elements l'.id ?_ (hall_post l' hl')
    rw [hmap2, hmap1]
  obtain ⟨m3, L3, hpost⟩ := processHoverAll_some post m2 hall_post2
  obtain ⟨hcb3, hmp3, hmap3, hother3⟩ := processHoverAll_props post m2 m3 L3 hpost
  obtain ⟨hlk3, hfl3⟩ := hother3 l.id huniq_post
  have hcons : m1.processHoverAll (l :: post) = some (m3, L2 ++ L3) := by
    simp only [EventManager.processHoverAll, hstep, hpost]
  have hrun : m.process (winit.WindowEvent.CursorMoved pos) (pre ++ l :: post) =
      some (m3, L1 ++ (L2 ++ L3)) := by
    simp only [EventManager.process]
    exact processHoverAll_append pre (l :: post) _ m1 m3 L1 (L2 ++ L3) hpre hcons
  refine ⟨m3, L1 ++ (L2 ++ L3), hrun, ?_, ?_, ?_, ?_, ?_⟩
  · exact hcb3.trans (hcb2.trans hcb1)
  · exact hmp3.trans (hmp2.trans hmp1')
  · exact hmap3.trans (hmap2.trans hmap1)
  · intro hw
    have hw1 : (Bounds.new l.position l.size).within m1.mouse_pos = true := by
      rw [hmp1']; exact hw
    obtain ⟨hdef, hndef⟩ := hin2 hw1
    constructor
    · intro hd
      obtain ⟨hlk2, hL2⟩ := hdef hd
      refine ⟨by rw [hlk3, hlk2], ?_⟩
      rw [List.filter_append, List.filter_append, hfl1, hfl3, hL2]
      simp [hcb1, hoverCalls_filter_self]
    · intro hd
      obtain ⟨hm2, hL2⟩ := hndef hd
      refine ⟨by rw [hlk3, hm2]; exact he1, ?_⟩
      rw [List.filter_append, List.filter_append, hfl1, hfl3, hL2]
      simp
  · intro hw
    have hw1 : (Bounds.new l.position l.size).within m1.mouse_pos = false := by
      rw [hmp1']; exact hw
    obtain ⟨hlk2, hL2⟩ := hout2 hw1
    refine ⟨by rw [hlk3, hlk2], ?_⟩
    rw [List.filter_append, List.filter_append, hfl1, hfl3, hL2]
    simp

theorem processMouse_master (m : EventManager) (pre post : List LayoutNode)
    (l : LayoutNode) (e : Element) (s : winit.ElementState) (b : winit.MouseButton)
    (hall : ∀ l' ∈ pre ++ l :: post, ∃ x ∈ m.elements, (x.id == l'.id) = true)
    (huniq : ∀ l' ∈ pre ++ post, (l'.id == l.id) = false)
    (he : m.lookup l.id = some e) :
    ∃ m' L, m.process (winit.WindowEvent.MouseInput s b) (pre ++ l :: post) = some (m', L) ∧
      m'.callbacks = m.callbacks ∧ m'.mouse_pos = m.mouse_pos ∧
      m'.elements.map (fun x => x.id) = m.elements.map (fun x => x.id) ∧
      ((s = winit.ElementState.Pressed →
         ((e.state = ElementState.Default →
            m'.lookup l.id = some e ∧ L.filter (fun c => c.2 == l.id) = []) ∧
          (e.state = ElementState.Hovered →
            m'.lookup l.id = some (Element.click e) ∧
            L.filter (fun c => c.2 == l.id) = clickCalls m.callbacks l.id) ∧
          (e.state = ElementState.Clicked →
            m'.lookup l.id = some e ∧ L.filter (fun c => c.2 == l.id) = []))) ∧
       (s = winit.ElementState.Released →
         m'.lookup l.id = some (Element.roll_back e) ∧
         L.filter (fun c => c.2 == l.id) = [])) := by
  have hall_pre : ∀ l' ∈ pre, ∃ x ∈ m.elements, (x.id == l'.id) = true :=
    fun l' hl' => hall l' (List.mem_append_left _ hl')
  have hall_post : ∀ l' ∈ post, ∃ x ∈ m.elements, (x.id == l'.id) = true :=
    fun l' hl' => hall l' (List.mem_append_right _ (List.mem_cons_of_mem _ hl'))
  have huniq_pre : ∀ l' ∈ pre, (l'.id == l.id) = false :=
    fun l' hl' => huniq l' (List.mem_append_left _ hl')
  have huniq_post : ∀ l' ∈ post, (l'.id == l.id) = false :=
    fun l' hl' => huniq l' (List.mem_append_right _ hl')
  obtain ⟨m1, L1, hpre⟩ := processMouseAll_some pre s b m hall_pre
  obtain ⟨hcb1, hmp1, hmap1, hother1⟩ := processMouseAll_props pre s b m m1 L1 hpre
  obtain ⟨hlk1, hfl1⟩ := hother1 l.id huniq_pre
  have he1 : m1.lookup l.id = some e := hlk1.trans he
  obtain ⟨m2, L2, hstep, hcb2, hmp2, hmap2, hpr2, hre2⟩ := process_mouse_target m1 l e s b he1
  have hall_post2 : ∀ l' ∈ post, ∃ x ∈ m2.elements, (x.id == l'.id) = true := by
    intro l' hl'
    refine exists_id_congr m.elements m2.elements l'.id ?_ (hall_post l' hl')
    rw [hmap2, hmap1]
  obtain ⟨m3, L3, hpost⟩ := processMouseAll_some post s b m2 hall_post2
  obtain ⟨hcb3, hmp3, hmap3, hother3⟩ := processMouseAll_props post s b m2 m3 L3 hpost
  obtain ⟨hlk3, hfl3⟩ := hother3 l.id huniq_post
  have hcons : m1.processMouseAll (l :: post) s b = some (m3, L2 ++ L3) := by
    simp only [EventManager.processMouseAll, hstep, hpost]
  have hrun : m.process (winit.WindowEvent.MouseInput s b) (pre ++ l :: post) =
      some (m3, L1 ++ (L2 ++ L3)) := by
    simp only [EventManager.process]
    exact processMouseAll_append pre (l :: post) s b m m1 m3 L1 (L2 ++ L3) hpre hcons
  refine ⟨m3, L1 ++ (L2 ++ L3), hrun, ?_, ?_, ?_, ?_, ?_⟩
  · exact hcb3.trans (hcb2.trans hcb1)
  · exact hmp3.trans (hmp2.trans hmp1)
  · exact hmap3.trans (hmap2.trans hmap1)
  · intro hs
    obtain ⟨hdef, hhov, hclk⟩ := hpr2 hs
    refine ⟨?_, ?_, ?_⟩
    · intro hd
      obtain ⟨hm2, hL2⟩ := hdef hd
      refine ⟨by rw [hlk3, hm2]; exact he1, ?_⟩
      rw [List.filter_append, List.filter_append, hfl1, hfl3, hL2]
      simp
    · intro hd
      obtain ⟨hlk2, hL2⟩ := hhov hd
      refine ⟨by rw [hlk3, hlk2], ?_⟩
      rw [List.filter_append, List.filter_append, hfl1, hfl3, hL2]
      simp [hcb1, clickCalls_filter_self]
    · intro hd
      obtain ⟨hm2, hL2⟩ := hclk hd
      refine ⟨by rw [hlk3, hm2]; exact he1, ?_⟩
      rw [List.filter_append, List.filter_append, hfl1, hfl3, hL2]
      simp
  · intro hs
    obtain ⟨hlk2, hL2⟩ := hre2 hs
    refine ⟨by rw [hlk3, hlk2], ?_⟩
    rw [List.filter_append, List.filter_append, hfl1, hfl3, hL2]
    simp

/-! ## Fail-fast lemmas: lookup of an unknown identity -/

theorem forall_id_congr (es es' : List Element) (w : String)
    (h : es'.map (fun e => e.id) = es.map (fun e => e.id))
    (hx : ∀ e ∈ es, (e.id == w) = false) :
    ∀ e ∈ es', (e.id == w) = false := by
  intro e he
  have hmem : e.id ∈ es.map (fun e => e.id) := by
    rw [← h]; exact List.mem_map.mpr ⟨e, he, rfl⟩
  obtain ⟨y, hy, hid⟩ := List.mem_map.mp hmem
  rw [← hid]
  exact hx y hy

theorem process_hover_none (m : EventManager) (l : LayoutNode)
    (h : ∀ x ∈ m.elements, (x.id == l.id) = false) : m.process_hover l = none := by
  simp only [EventManager.process_hover, (findSplit_eq_none m.elements l.id).mpr h]

theorem process_mouse_none (m : EventManager) (l : LayoutNode)
    (s : winit.ElementState) (b : winit.MouseButton)
    (h : ∀ x ∈ m.elements, (x.id == l.id) = false) : m.process_mouse l s b = none := by
  simp only [EventManager.process_mouse, (findSplit_eq_none m.elements l.id).mpr h]

theorem processHoverAll_none (layout : List LayoutNode) :
    ∀ m : EventManager, ∀ l ∈ layout, (∀ x ∈ m.elements, (x.id == l.id) = false) →
      m.processHoverAll layout = none := by
  induction layout with
  | nil => intro m l hl; simp at hl
  | cons a rest ih =>
    intro m l hl hno
    rcases List.mem_cons.mp hl with rfl | hl
    · simp only [EventManager.processHoverAll, process_hover_none m l hno]
    · rcases h1 : m.process_hover a with - | ⟨m2, calls⟩
      · simp only [EventManager.processHoverAll, h1]
      · obtain ⟨-, -, hmap, -⟩ := process_hover_step m a m2 calls h1
        have hno2 : ∀ x ∈ m2.elements, (x.id == l.id) = false :=
          forall_id_congr m.elements m2.elements l.id hmap hno
        simp only [EventManager.processHoverAll, h1, ih m2 l hl hno2]

theorem processMouseAll_none (layout : List LayoutNode)
    (s : winit.ElementState) (b : winit.MouseButton) :
    ∀ m : EventManager, ∀ l ∈ layout, (∀ x ∈ m.elements, (x.id == l.id) = false) →
      m.processMouseAll layout s b = none := by
  induction layout with
  | nil => intro m l hl; simp at hl
  | cons a rest ih =>
    intro m l hl hno
    rcases List.mem_cons.mp hl with rfl | hl
    · simp only [EventManager.processMouseAll, process_mouse_none m l s b hno]
    · rcases h1 : m.process_mouse a s b with - | ⟨m2, calls⟩
      · simp only [EventManager.processMouseAll, h1]
      · obtain ⟨-, -, hmap, -⟩ := process_mouse_step m a s b m2 calls h1
        have hno2 : ∀ x ∈ m2.elements, (x.id == l.id) = false :=
          forall_id_congr m.elements m2.elements l.id hmap hno
        simp only [EventManager.processMouseAll, h1, ih m2 l hl hno2]

/-! ## Concrete fixtures used by the witnesses -/

/-- A sample layout node: widget `"a"` at the origin, 10 by 10. -/
def nodeA : LayoutNode := ⟨"a", ⟨0, 0⟩, ⟨10, 10⟩⟩

/-- A sample dispatcher as built at construction: one idle element for
`"a"`, one hover and one click callback registered for `"a"`. -/
def mgrA : EventManager :=
  EventManager.new
    ((EventContext.new.add (EventFn.OnHover "a")).add (EventFn.OnClick "a")) [nodeA]

/-- A dispatcher whose element for `"a"` is hovered, with `previous_state`
recorded as idle — exactly the state `Element::hover` produces. -/
def mgrHov : EventManager :=
  ⟨⟨5, 5⟩, [⟨"a", ElementState.Default, ElementState.Hovered⟩], []⟩

/-- A dispatcher whose element for `"a"` is hovered, with hover and click
callbacks registered for `"a"`. -/
def mgrB : EventManager :=
  ⟨⟨5, 5⟩, [⟨"a", ElementState.Default, ElementState.Hovered⟩],
    [EventFn.OnHover "a", EventFn.OnClick "a"]⟩

/-- A dispatcher whose element for `"a"` is pressed, with `previous_state`
recorded as hovered — exactly the state `Element::click` produces. -/
def mgrClk : EventManager :=
  ⟨⟨5, 5⟩, [⟨"a", ElementState.Hovered, ElementState.Clicked⟩], []⟩

/-! ## The claims -/

/-- C1: for any widget occurring (once) in the layout snapshot whose
element is idle, a pointer-moved event with the pointer inside the
widget's bounds turns the element hovered, and the callbacks invoked for
that identity are exactly the registered `OnHover` entries for it — each
exactly once (strictly increasing registration indices), in registration
order. -/
theorem hover_enter_fires_onhover_once (m : EventManager) (pos : Position)
    (pre post : List LayoutNode) (l : LayoutNode) (e : Element)
    (hall : ∀ l' ∈ pre ++ l :: post, ∃ x ∈ m.elements, (x.id == l'.id) = true)
    (huniq : ∀ l' ∈ pre ++ post, (l'.id == l.id) = false)
    (he : m.lookup l.id = some e)
    (hidle : e.state = ElementState.Default)
    (hin : (Bounds.new l.position l.size).within pos = true) :
    ∃ m' L,
      m.process (winit.WindowEvent.CursorMoved pos) (pre ++ l :: post) = some (m', L) ∧
      (∃ e', m'.lookup l.id = some e' ∧ e'.state = ElementState.Hovered) ∧
      L.filter (fun c => c.2 == l.id) = hoverCalls m.callbacks l.id ∧
      (∀ j x, (j, x) ∈ L.filter (fun c => c.2 == l.id) ↔
        (x = l.id ∧ ∃ f, m.callbacks[j]? = some f ∧ f.run_hover l.id = true)) ∧
      (L.filter (fun c => c.2 == l.id)).Pairwise (fun a b => a.1 < b.1) := by
  obtain ⟨m', L, hrun, hcb, hmp, hmap, hin', hout'⟩ :=
    processCursor_master m pos pre post l e hall huniq he
  obtain ⟨hdef, -⟩ := hin' hin
  obtain ⟨hlk, hfl⟩ := hdef hidle
  refine ⟨m', L, hrun, ⟨Element.hover e, hlk, rfl⟩, hfl, ?_, ?_⟩
  · intro j x
    rw [hfl]
    exact hoverCalls_mem_iff m.callbacks j x l.id
  · rw [hfl]
    exact runHoverLoop_pairwise m.callbacks 0 l.id

/-- Witness for C1: `mgrA` (idle element `"a"`, one `OnHover` and one
`OnClick` entry), pointer moved to `(5, 5)` inside `"a"`'s bounds. -/
theorem hover_enter_fires_onhover_once_witness :
    ∃ m' L,
      mgrA.process (winit.WindowEvent.CursorMoved ⟨5, 5⟩) ([] ++ nodeA :: []) = some (m', L) ∧
      (∃ e', m'.lookup nodeA.id = some e' ∧ e'.state = ElementState.Hovered) ∧
      L.filter (fun c => c.2 == nodeA.id) = hoverCalls mgrA.callbacks nodeA.id ∧
      (∀ j x, (j, x) ∈ L.filter (fun c => c.2 == nodeA.id) ↔
        (x = nodeA.id ∧ ∃ f, mgrA.callbacks[j]? = some f ∧ f.run_hover nodeA.id = true)) ∧
      (L.filter (fun c => c.2 == nodeA.id)).Pairwise (fun a b => a.1 < b.1) :=
  hover_enter_fires_onhover_once mgrA ⟨5, 5⟩ [] [] nodeA (Element.new "a")
    (by decide) (by decide) (by decide) (by decide) (by decide)

/-- C2 refuted at a concrete input: in `mgrHov` the widget `"a"` is
`Hovered`, yet a button-released event changes its state to `Idle`
(`roll_back` runs unconditionally), so the event is not a no-op on a
`Hovered` widget. -/
theorem released_not_noop_on_hovered_cex :
    (mgrHov.lookup "a").map (fun e => e.state) = some ElementState.Hovered ∧
    mgrHov.process
        (winit.WindowEvent.MouseInput winit.ElementState.Released winit.MouseButton.Left)
        [nodeA] =
      some (⟨⟨5, 5⟩, [⟨"a", ElementState.Default, ElementState.Default⟩], []⟩, []) ∧
    ((⟨⟨5, 5⟩, [⟨"a", ElementState.Default, ElementState.Default⟩], []⟩ :
        EventManager).lookup "a").map (fun e => e.state) ≠ some ElementState.Hovered := by
  decide

/-- C2 (amended): a button-released event rolls every widget back to its
recorded `previous_state` unconditionally — a `Pressed` widget is restored
to the `previous_state` recorded at the last `Pressed` transition, but
`Idle` and `Hovered` widgets are rolled back too instead of being left
unchanged — and no callback fires. -/
theorem released_rolls_back_unconditionally (m : EventManager)
    (pre post : List LayoutNode) (l : LayoutNode) (e : Element) (b : winit.MouseButton)
    (hall : ∀ l' ∈ pre ++ l :: post, ∃ x ∈ m.elements, (x.id == l'.id) = true)
    (huniq : ∀ l' ∈ pre ++ post, (l'.id == l.id) = false)
    (he : m.lookup l.id = some e) :
    ∃ m' L,
      m.process (winit.WindowEvent.MouseInput winit.ElementState.Released b)
        (pre ++ l :: post) = some (m', L) ∧
      m'.lookup l.id = some (Element.roll_back e) ∧
      (Element.roll_back e).state = e.previous_state ∧
      L.filter (fun c => c.2 == l.id) = [] := by
  obtain ⟨m', L, hrun, -, -, -, -, hre⟩ :=
    processMouse_master m pre post l e winit.ElementState.Released b hall huniq he
  obtain ⟨hlk, hfl⟩ := hre rfl
  exact ⟨m', L, hrun, hlk, rfl, hfl⟩

/-- Witness for the amended C2: releasing over `mgrClk` (element `"a"`
pressed with `previous_state = Hovered`) restores the hovered state. -/
theorem released_rolls_back_unconditionally_witness :
    ∃ m' L,
      mgrClk.process (winit.WindowEvent.MouseInput winit.ElementState.Released
        winit.MouseButton.Left) ([] ++ nodeA :: []) = some (m', L) ∧
      m'.lookup nodeA.id =
        some (Element.roll_back ⟨"a", ElementState.Hovered, ElementState.Clicked⟩) ∧
      (Element.roll_back ⟨"a", ElementState.Hovered, ElementState.Clicked⟩).state =
        (⟨"a", ElementState.Hovered, ElementState.Clicked⟩ : Element).previous_state ∧
      L.filter (fun c => c.2 == nodeA.id) = [] :=
  released_rolls_back_unconditionally mgrClk [] [] nodeA
    ⟨"a", ElementState.Hovered, ElementState.Clicked⟩ winit.MouseButton.Left
    (by decide) (by decide) (by decide)

/-- C3: a pointer-moved event with the pointer outside the widget's bounds
resets the widget's element to `Idle` whatever its prior state (`Hovered`
and `Pressed` both collapse to `Idle`), and no callback is invoked for that
widget. -/
theorem pointer_exit_resets_to_idle (m : EventManager) (pos : Position)
    (pre post : List LayoutNode) (l : LayoutNode) (e : Element)
    (hall : ∀ l' ∈ pre ++ l :: post, ∃ x ∈ m.elements, (x.id == l'.id) = true)
    (huniq : ∀ l' ∈ pre ++ post, (l'.id == l.id) = false)
    (he : m.lookup l.id = some e)
    (hout : (Bounds.new l.position l.size).within pos = false) :
    ∃ m' L,
      m.process (winit.WindowEvent.CursorMoved pos) (pre ++ l :: post) = some (m', L) ∧
      m'.lookup l.id = some (Element.default e) ∧
      (Element.default e).state = ElementState.Default ∧
      L.filter (fun c => c.2 == l.id) = [] := by
  obtain ⟨m', L, hrun, -, -, -, -, hout'⟩ :=
    processCursor_master m pos pre post l e hall huniq he
  obtain ⟨hlk, hfl⟩ := hout' hout
  exact ⟨m', L, hrun, hlk, rfl, hfl⟩

/-- Witness for C3: pointer moved to `(50, 50)`, outside `"a"`'s bounds,
while `"a"` is hovered in `mgrB` (which has callbacks registered). -/
theorem pointer_exit_resets_to_idle_witness :
    ∃ m' L,
      mgrB.process (winit.WindowEvent.CursorMoved ⟨50, 50⟩) ([] ++ nodeA :: []) = some (m', L) ∧
      m'.lookup nodeA.id =
        some (Element.default ⟨"a", ElementState.Default, ElementState.Hovered⟩) ∧
      (Element.default ⟨"a", ElementState.Default, ElementState.Hovered⟩).state =
        ElementState.Default ∧
      L.filter (fun c => c.2 == nodeA.id) = [] :=
  pointer_exit_resets_to_idle mgrB ⟨50, 50⟩ [] [] nodeA
    ⟨"a", ElementState.Default, ElementState.Hovered⟩
    (by decide) (by decide) (by decide) (by decide)

/-- C4: a button-pressed event on a `Hovered` widget makes it `Pressed`
and invokes exactly the registered `OnClick` callbacks for its identity,
each exactly once in registration order; the same event on an `Idle`
widget leaves its element unchanged and invokes no callback for it. -/
theorem button_press_hovered_fires_onclick_once (m : EventManager)
    (pre post : List LayoutNode) (l : LayoutNode) (e : Element) (b : winit.MouseButton)
    (hall : ∀ l' ∈ pre ++ l :: post, ∃ x ∈ m.elements, (x.id == l'.id) = true)
    (huniq : ∀ l' ∈ pre ++ post, (l'.id == l.id) = false)
    (he : m.lookup l.id = some e) :
    ∃ m' L,
      m.process (winit.WindowEvent.MouseInput winit.ElementState.Pressed b)
        (pre ++ l :: post) = some (m', L) ∧
      (e.state = ElementState.Hovered →
        (∃ e', m'.lookup l.id = some e' ∧ e'.state = ElementState.Clicked) ∧
        L.filter (fun c => c.2 == l.id) = clickCalls m.callbacks l.id ∧
        (∀ j x, (j, x) ∈ L.filter (fun c => c.2 == l.id) ↔
          (x = l.id ∧ ∃ f, m.callbacks[j]? = some f ∧ f.run_click l.id = true)) ∧
        (L.filter (fun c => c.2 == l.id)).Pairwise (fun a b => a.1 < b.1)) ∧
      (e.state = ElementState.Default →
        m'.lookup l.id = some e ∧ L.filter (fun c => c.2 == l.id) = []) := by
  obtain ⟨m', L, hrun, hcb, hmp, hmap, hpr, -⟩ :=
    processMouse_master m pre post l e winit.ElementState.Pressed b hall huniq he
  obtain ⟨hdef, hhov, -⟩ := hpr rfl
  refine ⟨m', L, hrun, ?_, ?_⟩
  · intro hs
    obtain ⟨hlk, hfl⟩ := hhov hs
    refine ⟨⟨Element.click e, hlk, rfl⟩, hfl, ?_, ?_⟩
    · intro j x
      rw [hfl]
      exact clickCalls_mem_iff m.callbacks j x l.id
    · rw [hfl]
      exact runClickLoop_pairwise m.callbacks 0 l.id
  · intro hs
    exact hdef hs

/-- Witness for C4: pressing the left button over `mgrB` (element `"a"`
hovered, one `OnHover` and one `OnClick` entry). -/
theorem button_press_hovered_fires_onclick_once_witness :
    ∃ m' L,
      mgrB.process (winit.WindowEvent.MouseInput winit.ElementState.Pressed
        winit.MouseButton.Left) ([] ++ nodeA :: []) = some (m', L) ∧
      ((⟨"a", ElementState.Default, ElementState.Hovered⟩ : Element).state =
          ElementState.Hovered →
        (∃ e', m'.lookup nodeA.id = some e' ∧ e'.state = ElementState.Clicked) ∧
        L.filter (fun c => c.2 == nodeA.id) = clickCalls mgrB.callbacks nodeA.id ∧
        (∀ j x, (j, x) ∈ L.filter (fun c => c.2 == nodeA.id) ↔
          (x = nodeA.id ∧ ∃ f, mgrB.callbacks[j]? = some f ∧ f.run_click nodeA.id = true)) ∧
        (L.filter (fun c => c.2 == nodeA.id)).Pairwise (fun a b => a.1 < b.1)) ∧
      ((⟨"a", ElementState.Default, ElementState.Hovered⟩ : Element).state =
          ElementState.Default →
        m'.lookup nodeA.id = some ⟨"a", ElementState.Default, ElementState.Hovered⟩ ∧
        L.filter (fun c => c.2 == nodeA.id) = []) :=
  button_press_hovered_fires_onclick_once mgrB [] [] nodeA
    ⟨"a", ElementState.Default, ElementState.Hovered⟩ winit.MouseButton.Left
    (by decide) (by decide) (by decide)

/-- C5: `Element::hover` (the operation entering `Hovered`) sets
`state = Hovered` and forces `previous_state = Idle` for every element,
whatever its current state — in particular even when the state before the
call was `Pressed`. -/
theorem hover_forces_previous_state_idle (e : Element) :
    (Element.hover e).state = ElementState.Hovered ∧
    (Element.hover e).previous_state = ElementState.Default ∧
    (Element.hover ⟨e.id, e.previous_state, ElementState.Clicked⟩).previous_state =
      ElementState.Default :=
  ⟨rfl, rfl, rfl⟩

/-- C6: re-delivering the identical pointer-moved event (same position) to
a widget that the first delivery left `Hovered` keeps it `Hovered` and
fires no callback for that widget the second time. -/
theorem hover_redelivery_idempotent (m : EventManager) (pos : Position)
    (pre post : List LayoutNode) (l : LayoutNode) (e : Element)
    (hall : ∀ l' ∈ pre ++ l :: post, ∃ x ∈ m.elements, (x.id == l'.id) = true)
    (huniq : ∀ l' ∈ pre ++ post, (l'.id == l.id) = false)
    (he : m.lookup l.id = some e)
    (m1 : EventManager) (L1 : List Call)
    (h1 : m.process (winit.WindowEvent.CursorMoved pos) (pre ++ l :: post) = some (m1, L1))
    (e1 : Element) (he1 : m1.lookup l.id = some e1)
    (hst : e1.state = ElementState.Hovered) :
    ∃ m2 L2,
      m1.process (winit.WindowEvent.CursorMoved pos) (pre ++ l :: post) = some (m2, L2) ∧
      (∃ e2, m2.lookup l.id = some e2 ∧ e2.state = ElementState.Hovered) ∧
      L2.filter (fun c => c.2 == l.id) = [] := by
  obtain ⟨m', L, hrun, hcb, hmp, hmap, hin', hout'⟩ :=
    processCursor_master m pos pre post l e hall huniq he
  rw [h1] at hrun
  obtain ⟨hm', hL⟩ : m1 = m' ∧ L1 = L := by simpa using hrun
  subst hm'
  subst hL
  have hall1 : ∀ l' ∈ pre ++ l :: post, ∃ x ∈ m1.elements, (x.id == l'.id) = true :=
    fun l' hl' => exists_id_congr m.elements m1.elements l'.id hmap (hall l' hl')
  obtain ⟨m2, L2, hrun2, -, -, -, hin2, hout2⟩ :=
    processCursor_master m1 pos pre post l e1 hall1 huniq he1
  by_cases hw : (Bounds.new l.position l.size).within pos = true
  · obtain ⟨-, hnd⟩ := hin2 hw
    obtain ⟨hlk2, hfl2⟩ := hnd (by rw [hst]; simp)
    exact ⟨m2, L2, hrun2, ⟨e1, hlk2, hst⟩, hfl2⟩
  · exfalso
    have hwf : (Bounds.new l.position l.size).within pos = false := by simpa using hw
    obtain ⟨hlk1, -⟩ := hout' hwf
    have he1' : e1 = Element.default e := by
      rw [he1] at hlk1
      exact Option.some.inj hlk1
    rw [he1'] at hst
    simp [Element.default] at hst

/-- Witness for C6: after `mgrA` processes a move to `(5, 5)`, widget
`"a"` is hovered; the identical second delivery keeps it hovered and fires
nothing for it. -/
theorem hover_redelivery_idempotent_witness :
    ∃ m2 L2,
      (⟨⟨5, 5⟩, [⟨"a", ElementState.Default, ElementState.Hovered⟩],
          [EventFn.OnHover "a", EventFn.OnClick "a"]⟩ : EventManager).process
        (winit.WindowEvent.CursorMoved ⟨5, 5⟩) ([] ++ nodeA :: []) = some (m2, L2) ∧
      (∃ e2, m2.lookup nodeA.id = some e2 ∧ e2.state = ElementState.Hovered) ∧
      L2.filter (fun c => c.2 == nodeA.id) = [] :=
  hover_redelivery_idempotent mgrA ⟨5, 5⟩ [] [] nodeA (Element.new "a")
    (by decide) (by decide) (by decide)
    ⟨⟨5, 5⟩, [⟨"a", ElementState.Default, ElementState.Hovered⟩],
      [EventFn.OnHover "a", EventFn.OnClick "a"]⟩ [(0, "a")] (by decide)
    ⟨"a", ElementState.Default, ElementState.Hovered⟩ (by decide) (by decide)

/-- C7: dispatching an event over a snapshot containing a node whose
identity has no element makes the whole dispatch fail (`none`, the model
of the `unwrap` panic — fail-fast, never a silent skip); and for a
dispatcher freshly constructed from a layout, the lookup succeeds for
every identity of that layout. -/
theorem unknown_widget_fails_fast (m : EventManager) (layout : List LayoutNode)
    (l : LayoutNode) (pos : Position) (s : winit.ElementState) (b : winit.MouseButton)
    (cx : EventContext) (hmem : l ∈ layout) :
    ((∀ x ∈ m.elements, (x.id == l.id) = false) →
      m.process (winit.WindowEvent.CursorMoved pos) layout = none ∧
      m.process (winit.WindowEvent.MouseInput s b) layout = none) ∧
    ((EventManager.new cx layout).lookup l.id).isSome = true := by
  constructor
  · intro hno
    constructor
    · simp only [EventManager.process]
      exact processHoverAll_none layout { m with mouse_pos := pos } l hmem hno
    · simp only [EventManager.process]
      exact processMouseAll_none layout s b m l hmem hno
  · refine List.find?_isSome.mpr ⟨Element.new l.id, ?_, by simp [Element.new]⟩
    exact List.mem_map.mpr ⟨l, hmem, rfl⟩

/-- Witness for C7: a dispatcher holding no elements at all panics on both
event kinds over `[nodeA]`, and a freshly built dispatcher resolves
`"a"`. -/
theorem unknown_widget_fails_fast_witness :
    ((∀ x ∈ (⟨⟨0, 0⟩, [], []⟩ : EventManager).elements, (x.id == nodeA.id) = false) →
      (⟨⟨0, 0⟩, [], []⟩ : EventManager).process
        (winit.WindowEvent.CursorMoved ⟨5, 5⟩) [nodeA] = none ∧
      (⟨⟨0, 0⟩, [], []⟩ : EventManager).process
        (winit.WindowEvent.MouseInput winit.ElementState.Pressed winit.MouseButton.Left)
        [nodeA] = none) ∧
    ((EventManager.new EventContext.new [nodeA]).lookup nodeA.id).isSome = true :=
  unknown_widget_fails_fast ⟨⟨0, 0⟩, [], []⟩ [nodeA] nodeA ⟨5, 5⟩
    winit.ElementState.Pressed winit.MouseButton.Left EventContext.new (by decide)

/-- C8: processing any event other than cursor-moved or mouse-input
returns the dispatcher unchanged — same elements (states and previous
states), same stored pointer position, same callback list — with an empty
invocation trace. -/
theorem unrecognized_event_noop (m : EventManager) (layout : List LayoutNode) :
    m.process winit.WindowEvent.OtherEvent layout = some (m, []) :=
  rfl

/-- C9: the outcome of a mouse-button event — the resulting element list
and the invocation trace — does not depend on the stored pointer position
or on which button the event carries, and the stored pointer position is
left unchanged. -/
theorem mouse_outcome_ignores_pos_and_button (m1 m2 : EventManager)
    (layout : List LayoutNode) (s : winit.ElementState) (b1 b2 : winit.MouseButton)
    (hel : m1.elements = m2.elements) (hcb : m1.callbacks = m2.callbacks) :
    ((m1.process (winit.WindowEvent.MouseInput s b1) layout).map
        (fun p => (p.1.elements, p.1.callbacks, p.2)) =
      (m2.process (winit.WindowEvent.MouseInput s b2) layout).map
        (fun p => (p.1.elements, p.1.callbacks, p.2))) ∧
    (∀ m' L, m1.process (winit.WindowEvent.MouseInput s b1) layout = some (m', L) →
      m'.mouse_pos = m1.mouse_pos) := by
  constructor
  · simp only [EventManager.process]
    exact processMouseAll_congr layout s b1 b2 m1 m2 hel hcb
  · intro m' L h
    simp only [EventManager.process] at h
    exact (processMouseAll_props layout s b1 m1 m' L h).2.1

/-- Witness for C9: two dispatchers sharing elements and callbacks but
with different stored pointer positions, one receiving a left and the
other a right button press. -/
theorem mouse_outcome_ignores_pos_and_button_witness :
    (((⟨⟨1, 2⟩, [⟨"a", ElementState.Default, ElementState.Hovered⟩],
          [EventFn.OnClick "a"]⟩ : EventManager).process
        (winit.WindowEvent.MouseInput winit.ElementState.Pressed winit.MouseButton.Left)
        [nodeA]).map (fun p => (p.1.elements, p.1.callbacks, p.2)) =
      ((⟨⟨100, 200⟩, [⟨"a", ElementState.Default, ElementState.Hovered⟩],
          [EventFn.OnClick "a"]⟩ : EventManager).process
        (winit.WindowEvent.MouseInput winit.ElementState.Pressed winit.MouseButton.Right)
        [nodeA]).map (fun p => (p.1.elements, p.1.callbacks, p.2))) ∧
    (∀ m' L, (⟨⟨1, 2⟩, [⟨"a", ElementState.Default, ElementState.Hovered⟩],
          [EventFn.OnClick "a"]⟩ : EventManager).process
        (winit.WindowEvent.MouseInput winit.ElementState.Pressed winit.MouseButton.Left)
        [nodeA] = some (m', L) →
      m'.mouse_pos = (⟨⟨1, 2⟩, [⟨"a", ElementState.Default, ElementState.Hovered⟩],
          [EventFn.OnClick "a"]⟩ : EventManager).mouse_pos) :=
  mouse_outcome_ignores_pos_and_button
    ⟨⟨1, 2⟩, [⟨"a", ElementState.Default, ElementState.Hovered⟩], [EventFn.OnClick "a"]⟩
    ⟨⟨100, 200⟩, [⟨"a", ElementState.Default, ElementState.Hovered⟩], [EventFn.OnClick "a"]⟩
    [nodeA] winit.ElementState.Pressed winit.MouseButton.Left winit.MouseButton.Right
    (by decide) (by decide)

/-- C10: at construction the dispatcher holds exactly one element per
layout node — idle, with idle `previous_state`, carrying the node's id —
and its callbacks are the context's; and every successful `process` call
preserves the list of element identities (no insertion, removal or
reordering) and the callback list, mutating only the pointer position and
the elements' two state fields. -/
theorem registry_construction_and_invariance :
    (∀ (cx : EventContext) (layout : List LayoutNode),
      (EventManager.new cx layout).elements = layout.map (fun l => Element.new l.id) ∧
      (EventManager.new cx layout).callbacks = cx.callbacks ∧
      ∀ e ∈ (EventManager.new cx layout).elements,
        e.state = ElementState.Default ∧ e.previous_state = ElementState.Default) ∧
    (∀ (m : EventManager) (event : winit.WindowEvent) (layout : List LayoutNode)
        (m' : EventManager) (L : List Call),
      m.process event layout = some (m', L) →
        m'.elements.map (fun x => x.id) = m.elements.map (fun x => x.id) ∧
        m'.callbacks = m.callbacks) := by
  constructor
  · intro cx layout
    refine ⟨rfl, rfl, ?_⟩
    intro e he
    simp only [EventManager.new] at he
    obtain ⟨l, -, rfl⟩ := List.mem_map.mp he
    exact ⟨rfl, rfl⟩
  · intro m event layout m' L h
    cases event with
    | CursorMoved pos =>
      simp only [EventManager.process] at h
      obtain ⟨hcb, -, hmap, -⟩ := processHoverAll_props layout _ m' L h
      exact ⟨hmap, hcb⟩
    | MouseInput s b =>
      simp only [EventManager.process] at h
      obtain ⟨hcb, -, hmap, -⟩ := processMouseAll_props layout s b m m' L h
      exact ⟨hmap, hcb⟩
    | OtherEvent =>
      simp only [EventManager.process, Option.some.injEq, Prod.mk.injEq] at h
      obtain ⟨hm, -⟩ := h
      subst hm
      exact ⟨rfl, rfl⟩

/-- Witness for C10: the process-invariance part applied to the concrete
button-release over `mgrHov`. -/
theorem registry_construction_and_invariance_witness :
    (⟨⟨5, 5⟩, [⟨"a", ElementState.Default, ElementState.Default⟩], []⟩ :
        EventManager).elements.map (fun x => x.id) =
      mgrHov.elements.map (fun x => x.id) ∧
    (⟨⟨5, 5⟩, [⟨"a", ElementState.Default, ElementState.Default⟩], []⟩ :
        EventManager).callbacks = mgrHov.callbacks :=
  registry_construction_and_invariance.2 mgrHov
    (winit.WindowEvent.MouseInput winit.ElementState.Released winit.MouseButton.Left)
    [nodeA] ⟨⟨5, 5⟩, [⟨"a", ElementState.Default, ElementState.Default⟩], []⟩ []
    (by decide)

end Helium
